import Mathlib

/-!
Verification of the host-side trace reconstructor (`src/decoder/src/lib.rs`)
of the tracing-defmt repository, together with the recursive reconstruction
strategy of `src/examples/host_trace_reconstructor.rs`.

The shallow embedding models:
* a decoded `Frame` as its format index plus the fully rendered message
  (the result of `frame.display(false).to_string()`), as a list of characters;
* the location table (`BTreeMap<u64, Location>`) as a lookup function
  `Nat → Option Location`;
* the telemetry sink and the stderr side channel by an explicit trace of
  `Output` actions emitted by the handlers (span creation with its semantic
  attributes becomes one `Output.begin`; dropping a popped span becomes
  `Output.endScope`; `info!` becomes `Output.event`; `eprintln!` of a log
  message becomes `Output.mirror`; the resynchronization warning becomes
  `Output.diag`);
* sink-assigned span handles as consecutive naturals (`next_handle`), since
  `tracing::Span` identities are opaque;
* the external frame decoder (`defmt_decoder::StreamDecoder`) at its
  contract: each `process` call observes a sequence of `decode()` outcomes,
  and the decoder object itself only matters through whether it is a freshly
  created one (`new_stream_decoder`) that has not yet been fed bytes.
-/

namespace TracingDefmt

/-- Source location resolved from the defmt table
(`defmt_decoder::Location`): file path, line (a `u64`, here a natural
taken mod 2^64 wherever the width matters), module path. -/
structure Location where
  file : List Char
  line : Nat
  module : List Char
deriving DecidableEq

/-- The wrapping `as i64` cast applied to a `u64` value
(`loc.line as i64`, decoder/src/lib.rs lines 95 and 142): the value is
reduced to 64 bits and reinterpreted in two's complement, so values of
2^63 and above come out negative. -/
def u64_as_i64 (n : Nat) : Int :=
  if n % 2 ^ 64 < 2 ^ 63 then ((n % 2 ^ 64 : Nat) : Int)
  else ((n % 2 ^ 64 : Nat) : Int) - 2 ^ 64

/-- One decoded record: `frame.index()` and the rendered text
`frame.display(false).to_string()`. -/
structure Frame where
  index : Nat
  message : List Char
deriving DecidableEq

/-- One live entry of `span_stack`.  The Rust code stores the
`tracing::Span` itself; we store the sink-assigned handle together with the
display name the span was begun with. -/
structure ScopeFrame where
  name : List Char
  handle : Nat
deriving DecidableEq

/-- The external incremental decoder, abstracted to the one property the
claims need: whether it is a freshly created decoder
(`table.new_stream_decoder()`) that has not yet received any bytes. -/
structure StreamDecoder where
  fresh : Bool
deriving DecidableEq

/-- `table.new_stream_decoder()`: a freshly created decoder. -/
def new_stream_decoder : StreamDecoder := ⟨true⟩

/-- State of `TraceStream` (decoder/src/lib.rs lines 42-46): the scope
stack, the stored stream decoder, and the handle counter modelling the
sink's opaque span identities. -/
structure TraceStream where
  span_stack : List ScopeFrame
  next_handle : Nat
  stream_decoder : Option StreamDecoder
deriving DecidableEq

/-- Observable calls made by the reconstructor: telemetry-sink calls
(`begin`/`endScope`/`event`) and the stderr side channel
(`mirror` for log text, `diag` for the malformed-stream warning). -/
inductive Output where
  | begin (handle : Nat) (name : List Char) (parent : Option Nat)
      (file : List Char) (line : Int) (module : List Char)
  | endScope (handle : Nat)
  | event (scope : Option Nat) (file : List Char) (line : Int)
      (module : List Char) (message : List Char)
  | mirror (message : List Char)
  | diag
deriving DecidableEq

/-- The `"span_enter: "` sentinel. -/
def enterPat : List Char := "span_enter: ".data

/-- The `"span_exit: "` sentinel. -/
def exitPat : List Char := "span_exit: ".data

/-- The legacy `"; file="` annotation marker. -/
def filePat : List Char := "; file=".data

/-- Index of the first occurrence of `pat` inside `s`, as Rust's
`str::find` computes it (`None` when `pat` does not occur). -/
def findSubIdx : List Char → List Char → Option Nat
  | [], pat => if pat.isPrefixOf ([] : List Char) then some 0 else none
  | c :: rest, pat =>
    if pat.isPrefixOf (c :: rest) then some 0
    else (findSubIdx rest pat).map (· + 1)

/-- Whether `pat` occurs somewhere inside `s`. -/
def hasSub (s pat : List Char) : Bool := (findSubIdx s pat).isSome

/-- Errors of the decoder crate.  `process` never constructs either
variant; they arise only during initialization (`TraceDecoder::new`). -/
inductive Error where
  | defmtErr
  | elfErr
deriving DecidableEq

/-- The `clean_name` computation of `handle_span_enter` (decoder/src/lib.rs
lines 83-87): cut the text at the first `"; file="` occurrence when there
is one, otherwise keep it verbatim. -/
def cleanName (name : List Char) : List Char :=
  match findSubIdx name filePat with
  | some idx => name.take idx
  | none => name

/-- `TraceStream::handle_span_enter` (decoder/src/lib.rs lines 82-129).
`name` is the text after the `"span_enter: "` occurrence.  The span
creation plus the five `set_attribute` calls are modelled as a single
`Output.begin` carrying the display name and the semantic attributes
(function name = display name, file path, line number, namespace).
The Rust `Vec` keeps its top at the end (`last`); the Lean list keeps its
top at the head, so `Vec::last` becomes `List.head?` and `Vec::push`
becomes cons. -/
def handle_span_enter (locs : Nat → Option Location) (name : List Char)
    (frameIndex : Nat) (st : TraceStream) : TraceStream × List Output :=
  let clean_name := cleanName name
  -- the three mutable locals `file`/`line`/`module`, default-initialized
  -- and overwritten when the location table has the index; the line is
  -- attached through the wrapping `as i64` cast
  let flm : List Char × Int × List Char :=
    match locs frameIndex with
    | some loc => (loc.file, u64_as_i64 loc.line, loc.module)
    | none => (([] : List Char), (0 : Int), "rp_pico".data)
  let parent := st.span_stack.head?
  let h := st.next_handle
  ({ st with
      span_stack := { name := clean_name, handle := h } :: st.span_stack,
      next_handle := h + 1 },
   [Output.begin h clean_name (parent.map ScopeFrame.handle)
      flm.1 flm.2.1 flm.2.2])

/-- `TraceStream::handle_span_exit` (decoder/src/lib.rs lines 131-133):
`self.span_stack.pop()`.  Popping the `tracing::Span` drops it, which is
what closes the span at the sink, hence the `Output.endScope` on the
nonempty case; popping an empty `Vec` is a no-op. -/
def handle_span_exit (_name : List Char) (st : TraceStream) :
    TraceStream × List Output :=
  match st.span_stack with
  | [] => (st, [])
  | top :: rest => ({ st with span_stack := rest }, [Output.endScope top.handle])

/-- `TraceStream::handle_log` (decoder/src/lib.rs lines 135-172): resolve
the location, attribute the event to the top of the stack (or none), emit
the `info!` event and mirror the message to stderr. -/
def handle_log (locs : Nat → Option Location) (message : List Char)
    (frameIndex : Nat) (st : TraceStream) : TraceStream × List Output :=
  let flm : List Char × Int × List Char :=
    match locs frameIndex with
    | some loc => (loc.file, u64_as_i64 loc.line, loc.module)
    | none => (([] : List Char), (0 : Int), "rp_pico".data)
  let parent := st.span_stack.head?
  (st,
   [Output.event (parent.map ScopeFrame.handle) flm.1 flm.2.1 flm.2.2 message,
    Output.mirror message])

/-- `TraceStream::handle_frame` (decoder/src/lib.rs lines 69-81): classify
the rendered message by `str::find` of the two sentinels — the enter
sentinel is tried first — and dispatch on the text after the occurrence. -/
def handle_frame (locs : Nat → Option Location) (f : Frame)
    (st : TraceStream) : TraceStream × List Output :=
  match findSubIdx f.message enterPat with
  | some idx =>
      handle_span_enter locs (f.message.drop (idx + enterPat.length)) f.index st
  | none =>
    match findSubIdx f.message exitPat with
    | some idx => handle_span_exit (f.message.drop (idx + exitPat.length)) st
    | none => handle_log locs f.message f.index st

/-- Record classification as performed by `handle_frame`. -/
inductive RecClass where
  | enter
  | exit
  | log
deriving DecidableEq

/-- The classification `handle_frame` applies to a rendered message. -/
def classify (m : List Char) : RecClass :=
  match findSubIdx m enterPat with
  | some _ => RecClass.enter
  | none =>
    match findSubIdx m exitPat with
    | some _ => RecClass.exit
    | none => RecClass.log

/-- Folding `handle_frame` over a list of decoded frames: the `Ok(frame)`
arm of the `process` loop, iterated. -/
def processFrames (locs : Nat → Option Location) (st : TraceStream) :
    List Frame → TraceStream × List Output
  | [] => (st, [])
  | f :: fs =>
    let p := handle_frame locs f st
    let q := processFrames locs p.1 fs
    (q.1, p.2 ++ q.2)

/-- One outcome of `decoder.decode()` (the Frame Source contract). -/
inductive DecodeResult where
  | ok (f : Frame)
  | unexpectedEof
  | malformed
deriving DecidableEq

/-- The `loop` of `TraceStream::process` (decoder/src/lib.rs lines 53-63),
consuming the decode outcomes of one call: handle each frame, break
silently on `UnexpectedEof`, and on `Malformed` print the warning, request
a fresh decoder (the returned flag) and break, leaving the remaining
outcomes unprocessed. -/
def processLoop (locs : Nat → Option Location) (st : TraceStream) :
    List DecodeResult → TraceStream × List Output × Bool
  | [] => (st, [], false)
  | DecodeResult.unexpectedEof :: _ => (st, [], false)
  | DecodeResult.malformed :: _ => (st, [Output.diag], true)
  | DecodeResult.ok f :: rest =>
    let p := handle_frame locs f st
    let q := processLoop locs p.1 rest
    (q.1, p.2 ++ q.2.1, q.2.2)

/-- `TraceStream::process` (decoder/src/lib.rs lines 49-67).  The call is
parameterized by the decode outcomes the Frame Source yields after
`received(data)`.  `none` models the panic of
`self.stream_decoder.take().unwrap()` when no decoder is stored; the
`take`/restore pair is modelled by the final field update.  On the
malformed path the stored decoder is the freshly created one; otherwise it
is the old decoder, which `received(data)` has made non-fresh.  The
function always returns `Ok(())`-style success, never `Except.error`. -/
def process (locs : Nat → Option Location) (ts : TraceStream)
    (results : List DecodeResult) :
    Option (Except Error (TraceStream × List Output)) :=
  match ts.stream_decoder with
  | none => none
  | some d =>
    let r := processLoop locs ts results
    let sd := if r.2.2 then new_stream_decoder else { d with fresh := false }
    some (Except.ok ({ r.1 with stream_decoder := some sd }, r.2.1))

/-- `TraceDecoder` (decoder/src/lib.rs lines 14-17), reduced to the
location table contract; the defmt `Table` itself only serves to mint
fresh stream decoders. -/
structure TraceDecoder where
  locations : Nat → Option Location

/-- `TraceDecoder::new_stream` (decoder/src/lib.rs lines 32-39): empty
scope stack and a freshly created stored decoder. -/
def TraceDecoder.new_stream (_d : TraceDecoder) : TraceStream :=
  { span_stack := [], next_handle := 0, stream_decoder := some new_stream_decoder }

/-- Iterating `process`: each element of `calls` is the outcome sequence
one `process` call observes.  `none` as soon as a call panics or returns
an error. -/
def processSeq (locs : Nat → Option Location) (ts : TraceStream) :
    List (List DecodeResult) → Option TraceStream
  | [] => some ts
  | rs :: rest =>
    match process locs ts rs with
    | some (Except.ok r) => processSeq locs r.1 rest
    | _ => none

/-! ### Observation extractors over output traces -/

/-- Display names of the `begin` calls of a trace, in order. -/
def beginNames (out : List Output) : List (List Char) :=
  out.filterMap fun o =>
    match o with
    | Output.begin _ n _ _ _ _ => some n
    | _ => none

/-- Location attribute triples of the `begin` calls of a trace. -/
def beginLocs (out : List Output) : List (List Char × Int × List Char) :=
  out.filterMap fun o =>
    match o with
    | Output.begin _ _ _ f l m => some (f, l, m)
    | _ => none

/-- Location attribute triples of the `event` calls of a trace. -/
def eventLocs (out : List Output) : List (List Char × Int × List Char) :=
  out.filterMap fun o =>
    match o with
    | Output.event _ f l m _ => some (f, l, m)
    | _ => none

/-- Scope attribution and message of the `event` calls of a trace. -/
def eventsOf (out : List Output) : List (Option Nat × List Char) :=
  out.filterMap fun o =>
    match o with
    | Output.event s _ _ _ msg => some (s, msg)
    | _ => none

/-- Whether an output is a scope call (`begin` or `endScope`) at the
telemetry sink. -/
def isScopeCall : Output → Bool
  | Output.begin _ _ _ _ _ _ => true
  | Output.endScope _ => true
  | _ => false

/-- Stack-trace validity checker for the `begin`/`end` calls of a trace:
starting from the stack of currently open handles, every `endScope` must
close the most recently begun handle that is still open.  Returns the
remaining open handles, or `none` on a violation. -/
def runStack : List Nat → List Output → Option (List Nat)
  | stk, [] => some stk
  | stk, Output.begin h _ _ _ _ _ :: rest => runStack (h :: stk) rest
  | stk, Output.endScope h :: rest =>
    match stk with
    | [] => none
    | h' :: s => if h = h' then runStack s rest else none
  | stk, Output.event _ _ _ _ _ :: rest => runStack stk rest
  | stk, Output.mirror _ :: rest => runStack stk rest
  | stk, Output.diag :: rest => runStack stk rest

/-- Well-formed record sequences: every exit closes the most recent open
enter and every enter is eventually exited (classification as performed by
the code). -/
inductive Bal : List Frame → Prop where
  | nil : Bal []
  | log (f : Frame) (ls : List Frame) :
      classify f.message = RecClass.log → Bal ls → Bal (f :: ls)
  | scope (e : Frame) (inner : List Frame) (x : Frame) (outer : List Frame) :
      classify e.message = RecClass.enter → Bal inner →
      classify x.message = RecClass.exit → Bal outer →
      Bal (e :: inner ++ x :: outer)

/-! ### The recursive reconstruction strategy
(`src/examples/host_trace_reconstructor.rs`, `process_scope`). -/

/-- Scope-tree actions compared between the two strategies: a scope
begins with its (function) name, the innermost open scope ends, or a log
event is recorded in the current scope context. -/
inductive RAct where
  | begin (name : List Char)
  | endScope
  | log (message : List Char)
deriving DecidableEq

/-- Raw actions of the recursive strategy: its scope begins also carry the
`args` field the span is created with
(host_trace_reconstructor.rs line 81). -/
inductive RawAct where
  | begin (name : List Char) (args : List Char)
  | endScope
  | log (message : List Char)
deriving DecidableEq

/-- Rust `char::is_whitespace`: the Unicode `White_Space` property
(U+0009-U+000D, U+0020, U+0085, U+00A0, U+1680, U+2000-U+200A, U+2028,
U+2029, U+202F, U+205F, U+3000).  Lean's `Char.isWhitespace` covers only
space, tab, CR and LF, so it is not used here. -/
def isUnicodeWhitespace (c : Char) : Bool :=
  let n := c.toNat
  (0x09 ≤ n && n ≤ 0x0D) || n == 0x20 || n == 0x85 || n == 0xA0 ||
    n == 0x1680 || (0x2000 ≤ n && n ≤ 0x200A) || n == 0x2028 ||
    n == 0x2029 || n == 0x202F || n == 0x205F || n == 0x3000

/-- Rust `str::trim`: strip Unicode whitespace from both ends. -/
def trim (l : List Char) : List Char :=
  ((l.dropWhile isUnicodeWhitespace).reverse.dropWhile isUnicodeWhitespace).reverse

/-- The name part of `"name(arg=val, ...)"`: the text before the first
`'('`, or the whole text when there is none (host_trace_reconstructor.rs
lines 71-74). -/
def stripArgs (content : List Char) : List Char :=
  match findSubIdx content ['('] with
  | some idx => content.take idx
  | none => content

/-- The args part of `"name(arg=val, ...)"` as the recursive strategy
slices it: the bytes between the first `'('` and the byte before the
string's end — in characters, everything after the `'('` with the final
character dropped — or empty when there is no `'('`. -/
def argsOf (content : List Char) : List Char :=
  match findSubIdx content ['('] with
  | some i => (content.drop (i + 1)).dropLast
  | none => []

/-- Rust `str::len`: the UTF-8 byte length of a text. -/
def utf8Len (l : List Char) : Nat := (l.map Char.utf8Size).sum

/-- `process_scope` (host_trace_reconstructor.rs lines 56-102), with an
explicit fuel for termination (any fuel at least the number of lines
behaves identically, see `process_scope_fuel`).  Returns the emitted
actions and the lines left unconsumed when the scan returns; `none`
models a panic.  An enter line splits its content at the first `'('`:
Rust slices the args as `&content[idx + 1..end]` with
`end = content.len() - 1` in bytes, which panics when the slice start
passes `end` (the `'('` is the final character) or when `end` falls
inside the final character (that character is multi-byte); with
single-byte final characters the byte positions coincide with character
positions.  The scan then recurses; the RAII guard drop on return is the
`RawAct.endScope` after the inner actions.  An exit line returns to the
caller.  Other nonempty lines are log events in the current scope
context; empty (after trimming) lines are skipped. -/
def process_scope (fuel : Nat) :
    List (List Char) → Option (List RawAct × List (List Char))
  | [] => some ([], [])
  | line :: rest =>
    match fuel with
    | 0 => some ([], line :: rest)
    | f + 1 =>
      let l := trim line
      if l = [] then process_scope f rest
      else
        match findSubIdx l enterPat with
        | some idx =>
          let content := l.drop (idx + enterPat.length)
          match findSubIdx content ['('] with
          | some i =>
            if utf8Len content - 1 < utf8Len (content.take i) + 1 then none
            else if (content.getLastD ' ').utf8Size ≠ 1 then none
            else
              match process_scope f rest with
              | none => none
              | some inner =>
                match process_scope f inner.2 with
                | none => none
                | some outer =>
                  some (RawAct.begin (content.take i)
                      ((content.drop (i + 1)).dropLast) ::
                      inner.1 ++ RawAct.endScope :: outer.1, outer.2)
          | none =>
            match process_scope f rest with
            | none => none
            | some inner =>
              match process_scope f inner.2 with
              | none => none
              | some outer =>
                some (RawAct.begin content [] :: inner.1 ++
                    RawAct.endScope :: outer.1, outer.2)
        | none =>
          match findSubIdx l exitPat with
          | some _ => some ([], rest)
          | none =>
            match process_scope f rest with
            | none => none
            | some acts => some (RawAct.log l :: acts.1, acts.2)

/-- `process_logs`: run the recursive scan from the top level on the whole
line list; `none` models a panic. -/
def processLogs (lines : List (List Char)) : Option (List RawAct) :=
  (process_scope lines.length lines).map Prod.fst

/-- The text after the first `"span_enter: "` occurrence of an
enter-classified message. -/
def enterName (m : List Char) : List Char :=
  match findSubIdx m enterPat with
  | some idx => m.drop (idx + enterPat.length)
  | none => []

/-- Reference scope-tree actions of a record sequence: one action per
record according to its classification, with enter names reduced to the
part before the argument list. -/
def refActs : List Frame → List RAct
  | [] => []
  | f :: fs =>
    match classify f.message with
    | RecClass.enter => RAct.begin (stripArgs (enterName f.message)) :: refActs fs
    | RecClass.exit => RAct.endScope :: refActs fs
    | RecClass.log => RAct.log f.message :: refActs fs

/-- Scope-tree view of an explicit-strategy output trace: keep scope
begins (names reduced to the part before the argument list), scope ends
and log events; drop the stderr side channel. -/
def projE (out : List Output) : List RAct :=
  out.filterMap fun o =>
    match o with
    | Output.begin _ n _ _ _ _ => some (RAct.begin (stripArgs n))
    | Output.endScope _ => some RAct.endScope
    | Output.event _ _ _ _ m => some (RAct.log m)
    | _ => none

/-- Scope-tree view of a recursive-strategy raw action trace: drop the
args field of the begins. -/
def projR (acts : List RawAct) : List RAct :=
  acts.map fun a =>
    match a with
    | RawAct.begin n _ => RAct.begin n
    | RawAct.endScope => RAct.endScope
    | RawAct.log m => RAct.log m

/-- Names of the scope begins of a recursive-strategy raw action trace. -/
def rawBeginNames (acts : List RawAct) : List (List Char) :=
  acts.filterMap fun a =>
    match a with
    | RawAct.begin n _ => some n
    | _ => none

/-- Reference raw actions of a record sequence: one action per record
according to its classification, with enter names cut at the argument
list and the args slice alongside. -/
def rawRefActs : List Frame → List RawAct
  | [] => []
  | f :: fs =>
    match classify f.message with
    | RecClass.enter =>
        RawAct.begin (stripArgs (enterName f.message))
          (argsOf (enterName f.message)) :: rawRefActs fs
    | RecClass.exit => RawAct.endScope :: rawRefActs fs
    | RecClass.log => RawAct.log f.message :: rawRefActs fs

/-- Whether the recursive strategy's args slice is safe on an
enter-classified text: when the enter content contains a `'('`, the slice
`&content[idx + 1..end]` must start no later than `end` and `end` must be
a character boundary (the final character is one byte).  True on
non-enter texts. -/
def argsSliceOk (m : List Char) : Bool :=
  match findSubIdx m enterPat with
  | some idx =>
    let content := m.drop (idx + enterPat.length)
    match findSubIdx content ['('] with
    | some i =>
      decide (utf8Len (content.take i) + 1 ≤ utf8Len content - 1)
        && ((content.getLastD ' ').utf8Size == 1)
    | none => true
  | none => true

/-- Records whose text survives the recursive strategy's trimming and
empty-line filter unchanged, avoids the legacy `"; file="` form, and does
not drive the recursive strategy's args slice into a panic. -/
def goodMsg (m : List Char) : Prop :=
  trim m = m ∧ m ≠ [] ∧ hasSub m filePat = false ∧ argsSliceOk m = true

instance (m : List Char) : Decidable (goodMsg m) := by
  unfold goodMsg
  infer_instance

/-! ### Helper lemmas on substring search -/

theorem isPrefixOf_length_le :
    ∀ {pat s : List Char}, pat.isPrefixOf s = true → pat.length ≤ s.length := by
  intro pat
  induction pat with
  | nil => intro s _; simp
  | cons a as ih =>
    intro s h
    cases s with
    | nil => simp [List.isPrefixOf] at h
    | cons b bs =>
      simp only [List.isPrefixOf, Bool.and_eq_true] at h
      simpa using Nat.succ_le_succ (ih h.2)

theorem isPrefixOf_findSubIdx {s pat : List Char}
    (h : pat.isPrefixOf s = true) : findSubIdx s pat = some 0 := by
  cases s <;> simp [findSubIdx, h]

theorem findSubIdx_cons_neg {c : Char} {r pat : List Char}
    (hp : ¬ pat.isPrefixOf (c :: r) = true) :
    findSubIdx (c :: r) pat = (findSubIdx r pat).map (· + 1) := by
  simp [findSubIdx, hp]

theorem findSubIdx_isPrefixOf_drop :
    ∀ {s : List Char} {pat : List Char} {j : Nat},
      findSubIdx s pat = some j → pat.isPrefixOf (s.drop j) = true := by
  intro s
  induction s with
  | nil =>
    intro pat j h
    by_cases hp : pat.isPrefixOf ([] : List Char) = true
    · simp only [findSubIdx, hp, if_true, Option.some.injEq] at h
      subst h
      simpa using hp
    · simp [findSubIdx, hp] at h
  | cons c r ih =>
    intro pat j h
    by_cases hp : pat.isPrefixOf (c :: r) = true
    · simp only [findSubIdx, hp, if_true, Option.some.injEq] at h
      subst h
      simpa using hp
    · rw [findSubIdx_cons_neg hp] at h
      cases hr : findSubIdx r pat with
      | none => rw [hr] at h; cases h
      | some j' =>
        rw [hr] at h
        simp only [Option.map_some', Option.some.injEq] at h
        subst h
        simpa using ih hr

theorem findSubIdx_bound :
    ∀ {s pat : List Char} {j : Nat},
      findSubIdx s pat = some j → j + pat.length ≤ s.length := by
  intro s
  induction s with
  | nil =>
    intro pat j h
    by_cases hp : pat.isPrefixOf ([] : List Char) = true
    · simp only [findSubIdx, hp, if_true, Option.some.injEq] at h
      subst h
      simpa using isPrefixOf_length_le hp
    · simp [findSubIdx, hp] at h
  | cons c r ih =>
    intro pat j h
    by_cases hp : pat.isPrefixOf (c :: r) = true
    · simp only [findSubIdx, hp, if_true, Option.some.injEq] at h
      subst h
      simpa using isPrefixOf_length_le hp
    · rw [findSubIdx_cons_neg hp] at h
      cases hr : findSubIdx r pat with
      | none => rw [hr] at h; cases h
      | some j' =>
        rw [hr] at h
        simp only [Option.map_some', Option.some.injEq] at h
        subst h
        have := ih hr
        simp only [List.length_cons]
        omega

theorem findSubIdx_cons_none {c : Char} {r pat : List Char}
    (h : findSubIdx (c :: r) pat = none) : findSubIdx r pat = none := by
  by_cases hp : pat.isPrefixOf (c :: r) = true
  · simp [findSubIdx, hp] at h
  · rw [findSubIdx_cons_neg hp] at h
    simpa using h

theorem findSubIdx_drop_none :
    ∀ (k : Nat) {s pat : List Char}, findSubIdx s pat = none →
      findSubIdx (s.drop k) pat = none := by
  intro k
  induction k with
  | zero => intro s pat h; simpa using h
  | succ k ih =>
    intro s pat h
    cases s with
    | nil => simpa using h
    | cons c r => simpa using ih (findSubIdx_cons_none h)

/-! ### Classification lemmas -/

theorem classify_enter {m : List Char} (h : classify m = RecClass.enter) :
    ∃ i, findSubIdx m enterPat = some i := by
  unfold classify at h
  cases he : findSubIdx m enterPat with
  | some i => exact ⟨i, rfl⟩
  | none =>
    rw [he] at h
    cases hx : findSubIdx m exitPat with
    | some i => rw [hx] at h; cases h
    | none => rw [hx] at h; cases h

theorem classify_exit {m : List Char} (h : classify m = RecClass.exit) :
    findSubIdx m enterPat = none ∧ ∃ i, findSubIdx m exitPat = some i := by
  unfold classify at h
  cases he : findSubIdx m enterPat with
  | some i => rw [he] at h; cases h
  | none =>
    rw [he] at h
    cases hx : findSubIdx m exitPat with
    | some i => exact ⟨rfl, i, rfl⟩
    | none => rw [hx] at h; cases h

theorem classify_log {m : List Char} (h : classify m = RecClass.log) :
    findSubIdx m enterPat = none ∧ findSubIdx m exitPat = none := by
  unfold classify at h
  cases he : findSubIdx m enterPat with
  | some i => rw [he] at h; cases h
  | none =>
    rw [he] at h
    cases hx : findSubIdx m exitPat with
    | some i => rw [hx] at h; cases h
    | none => exact ⟨rfl, rfl⟩

/-! ### Reduction lemmas for the handlers -/

theorem handle_frame_enter_eq (locs : Nat → Option Location) (st : TraceStream)
    {f : Frame} {idx : Nat} (h : findSubIdx f.message enterPat = some idx) :
    handle_frame locs f st =
      handle_span_enter locs (f.message.drop (idx + enterPat.length)) f.index st := by
  unfold handle_frame
  rw [h]

theorem handle_frame_exit_eq (locs : Nat → Option Location) (st : TraceStream)
    {f : Frame} {idx : Nat} (he : findSubIdx f.message enterPat = none)
    (hx : findSubIdx f.message exitPat = some idx) :
    handle_frame locs f st =
      handle_span_exit (f.message.drop (idx + exitPat.length)) st := by
  unfold handle_frame
  rw [he, hx]

theorem handle_frame_log_eq (locs : Nat → Option Location) (st : TraceStream)
    {f : Frame} (he : findSubIdx f.message enterPat = none)
    (hx : findSubIdx f.message exitPat = none) :
    handle_frame locs f st = handle_log locs f.message f.index st := by
  unfold handle_frame
  rw [he, hx]

theorem handle_span_enter_fst (locs : Nat → Option Location) (nm : List Char)
    (i : Nat) (st : TraceStream) :
    (handle_span_enter locs nm i st).1 =
      { st with
          span_stack :=
            { name := cleanName nm, handle := st.next_handle } :: st.span_stack,
          next_handle := st.next_handle + 1 } := rfl

theorem handle_span_exit_nil {nm : List Char} {st : TraceStream}
    (h : st.span_stack = []) : handle_span_exit nm st = (st, []) := by
  unfold handle_span_exit
  rw [h]

theorem handle_span_exit_cons {nm : List Char} {st : TraceStream}
    {top : ScopeFrame} {rest : List ScopeFrame} (h : st.span_stack = top :: rest) :
    handle_span_exit nm st =
      ({ st with span_stack := rest }, [Output.endScope top.handle]) := by
  unfold handle_span_exit
  rw [h]

theorem handle_log_fst (locs : Nat → Option Location) (m : List Char) (i : Nat)
    (st : TraceStream) : (handle_log locs m i st).1 = st := rfl

/-! ### Stack-trace validity of the emitted scope calls -/

/-- Handles of the currently open scopes, innermost first. -/
def stackHandles (st : TraceStream) : List Nat :=
  st.span_stack.map ScopeFrame.handle

theorem runStack_append :
    ∀ (a b : List Output) (stk : List Nat),
      runStack stk (a ++ b) = (runStack stk a).bind fun s => runStack s b := by
  intro a
  induction a with
  | nil => intro b stk; simp [runStack]
  | cons o rest ih =>
    intro b stk
    cases o with
    | begin h n p f l m => simp only [List.cons_append, runStack]; exact ih b _
    | endScope h =>
      cases stk with
      | nil => simp [runStack]
      | cons h' s =>
        by_cases hh : h = h'
        · simp only [List.cons_append, runStack, hh, if_pos rfl]
          exact ih b s
        · simp [runStack, hh]
    | event s f l m msg => simp only [List.cons_append, runStack]; exact ih b _
    | mirror m => simp only [List.cons_append, runStack]; exact ih b _
    | diag => simp only [List.cons_append, runStack]; exact ih b _

theorem handle_frame_runStack (locs : Nat → Option Location) (f : Frame)
    (st : TraceStream) :
    runStack (stackHandles st) (handle_frame locs f st).2 =
      some (stackHandles (handle_frame locs f st).1) := by
  cases he : findSubIdx f.message enterPat with
  | some idx =>
    rw [handle_frame_enter_eq locs st he]
    simp [handle_span_enter, stackHandles, runStack]
  | none =>
    cases hx : findSubIdx f.message exitPat with
    | some idx =>
      rw [handle_frame_exit_eq locs st he hx]
      cases hs : st.span_stack with
      | nil =>
        rw [handle_span_exit_nil hs]
        simp [stackHandles, runStack]
      | cons top rest =>
        rw [handle_span_exit_cons hs]
        simp [stackHandles, runStack, hs]
    | none =>
      rw [handle_frame_log_eq locs st he hx]
      simp [handle_log, stackHandles, runStack]

theorem processFrames_append (locs : Nat → Option Location) :
    ∀ (a b : List Frame) (st : TraceStream),
      processFrames locs st (a ++ b) =
        ((processFrames locs (processFrames locs st a).1 b).1,
         (processFrames locs st a).2 ++
           (processFrames locs (processFrames locs st a).1 b).2) := by
  intro a
  induction a with
  | nil => intro b st; simp [processFrames]
  | cons f fs ih =>
    intro b st
    simp only [List.cons_append, processFrames, List.append_eq]
    rw [ih]
    simp [List.append_assoc]

theorem processFrames_runStack (locs : Nat → Option Location) :
    ∀ (fs : List Frame) (st : TraceStream),
      runStack (stackHandles st) (processFrames locs st fs).2 =
        some (stackHandles (processFrames locs st fs).1) := by
  intro fs
  induction fs with
  | nil => intro st; simp [processFrames, runStack]
  | cons f fs ih =>
    intro st
    simp only [processFrames]
    rw [runStack_append, handle_frame_runStack]
    simpa using ih (handle_frame locs f st).1

/-- Processing a well-formed record sequence restores the scope stack it
started from. -/
theorem Bal_span_stack (locs : Nat → Option Location) {fs : List Frame}
    (hb : Bal fs) :
    ∀ st : TraceStream, (processFrames locs st fs).1.span_stack = st.span_stack := by
  induction hb with
  | nil => intro st; simp [processFrames]
  | log f ls hc _ ih =>
    intro st
    obtain ⟨he, hx⟩ := classify_log hc
    simp only [processFrames]
    rw [handle_frame_log_eq locs st he hx, handle_log_fst]
    exact ih st
  | scope e inner x outer hce hbi hcx hbo ihi iho =>
    intro st
    obtain ⟨ie, hie⟩ := classify_enter hce
    obtain ⟨hxe, ix, hix⟩ := classify_exit hcx
    simp only [processFrames]
    rw [handle_frame_enter_eq locs st hie]
    simp only [List.append_eq]
    rw [processFrames_append]
    set st1 := (handle_span_enter locs
      (e.message.drop (ie + enterPat.length)) e.index st).1 with hst1
    have hstack1 : st1.span_stack =
        { name := cleanName (e.message.drop (ie + enterPat.length)),
          handle := st.next_handle } :: st.span_stack := by
      rw [hst1, handle_span_enter_fst]
    set stI := (processFrames locs st1 inner).1 with hstI
    have hstackI : stI.span_stack =
        { name := cleanName (e.message.drop (ie + enterPat.length)),
          handle := st.next_handle } :: st.span_stack := by
      rw [hstI, ihi st1, hstack1]
    simp only [processFrames]
    rw [handle_frame_exit_eq locs stI hxe hix, handle_span_exit_cons hstackI]
    exact iho _

/-! ### Lemmas about `process` and its loop -/

theorem processLoop_ok_append (locs : Nat → Option Location) :
    ∀ (pre : List Frame) (rs : List DecodeResult) (st : TraceStream),
      processLoop locs st (pre.map DecodeResult.ok ++ rs) =
        ((processLoop locs (processFrames locs st pre).1 rs).1,
         (processFrames locs st pre).2 ++
           (processLoop locs (processFrames locs st pre).1 rs).2.1,
         (processLoop locs (processFrames locs st pre).1 rs).2.2) := by
  intro pre
  induction pre with
  | nil => intro rs st; simp [processFrames, processLoop]
  | cons f fs ih =>
    intro rs st
    simp only [List.map_cons, List.cons_append, processLoop, processFrames,
      List.append_eq]
    rw [ih]
    simp [List.append_assoc]

/-- Shape of a `process` call that hits a malformed signal after `pre`
well-decoded frames: the frames before the signal are handled, the
diagnostic is printed, remaining outcomes are dropped, the stored decoder
is a freshly created one, and the call returns successfully. -/
theorem process_malformed_eq (locs : Nat → Option Location)
    (stack : List ScopeFrame) (nh : Nat) (d : StreamDecoder)
    (pre : List Frame) (post : List DecodeResult) :
    process locs ⟨stack, nh, some d⟩
        (pre.map DecodeResult.ok ++ DecodeResult.malformed :: post) =
      some (Except.ok
        ({ (processFrames locs ⟨stack, nh, some d⟩ pre).1 with
            stream_decoder := some new_stream_decoder },
         (processFrames locs ⟨stack, nh, some d⟩ pre).2 ++ [Output.diag])) := by
  unfold process
  rw [processLoop_ok_append]
  simp [processLoop]

/-- A `process` call on a stream that stores a decoder returns `Ok` and
stores a decoder again. -/
theorem process_ok (locs : Nat → Option Location) (ts : TraceStream)
    (d : StreamDecoder) (rs : List DecodeResult)
    (h : ts.stream_decoder = some d) :
    ∃ r, process locs ts rs = some (Except.ok r)
      ∧ r.1.stream_decoder.isSome = true := by
  unfold process
  rw [h]
  exact ⟨_, rfl, rfl⟩

theorem processSeq_isSome (locs : Nat → Option Location) :
    ∀ (calls : List (List DecodeResult)) (ts : TraceStream),
      ts.stream_decoder.isSome = true →
      (processSeq locs ts calls).isSome = true := by
  intro calls
  induction calls with
  | nil => intro ts _; simp [processSeq]
  | cons rs rest ih =>
    intro ts h
    obtain ⟨d, hd⟩ := Option.isSome_iff_exists.mp h
    obtain ⟨r, hr, hr2⟩ := process_ok locs ts d rs hd
    simp only [processSeq]
    rw [hr]
    exact ih r.1 hr2

/-! ### Claim theorems -/

/-- C1: nesting correctness.  For every well-formed input record sequence
(every exit matched to the most recent unmatched enter, all enters
exited), the `begin`/`end` calls the reconstructor emits form a valid
stack trace — `runStack` accepts them, closing each scope in LIFO order —
and after the last record the scope stack is empty. -/
theorem nesting_correctness (locs : Nat → Option Location) (fs : List Frame)
    (hb : Bal fs) :
    runStack [] (processFrames locs (TraceDecoder.new_stream ⟨locs⟩) fs).2 = some []
    ∧ (processFrames locs (TraceDecoder.new_stream ⟨locs⟩) fs).1.span_stack = [] := by
  have h1 := processFrames_runStack locs fs (TraceDecoder.new_stream ⟨locs⟩)
  have h2 := Bal_span_stack locs hb (TraceDecoder.new_stream ⟨locs⟩)
  have hfin : (processFrames locs (TraceDecoder.new_stream ⟨locs⟩) fs).1.span_stack = [] := by
    rw [h2]; rfl
  constructor
  · have hinit : stackHandles (TraceDecoder.new_stream ⟨locs⟩) = [] := rfl
    rw [hinit] at h1
    rw [h1]
    simp [stackHandles, hfin]
  · exact hfin

/-- C1 witness: a two-record enter/exit sequence is well formed and both
conclusions evaluate. -/
theorem nesting_correctness_witness :
    runStack [] (processFrames (fun _ => none)
        (TraceDecoder.new_stream ⟨fun _ => none⟩)
        [⟨0, "span_enter: f".data⟩, ⟨1, "span_exit: f".data⟩]).2 = some []
    ∧ (processFrames (fun _ => none) (TraceDecoder.new_stream ⟨fun _ => none⟩)
        [⟨0, "span_enter: f".data⟩, ⟨1, "span_exit: f".data⟩]).1.span_stack = [] :=
  nesting_correctness (fun _ => none) _
    (Bal.scope ⟨0, "span_enter: f".data⟩ [] ⟨1, "span_exit: f".data⟩ []
      (by decide) Bal.nil (by decide) Bal.nil)

/-- C2: parent linkage.  A plain-log record processed after `pre` is
recorded as exactly one event attributed to the handle of the innermost
open scope — the top (`head?`) of the scope stack — or to no scope when
the stack is empty. -/
theorem parent_linkage (locs : Nat → Option Location) (pre : List Frame)
    (i : Nat) (m : List Char) (hlog : classify m = RecClass.log) :
    eventsOf (processFrames locs (TraceDecoder.new_stream ⟨locs⟩)
        (pre ++ [⟨i, m⟩])).2 =
      eventsOf (processFrames locs (TraceDecoder.new_stream ⟨locs⟩) pre).2 ++
        [((processFrames locs (TraceDecoder.new_stream ⟨locs⟩)
            pre).1.span_stack.head?.map ScopeFrame.handle, m)] := by
  obtain ⟨he, hx⟩ := classify_log hlog
  unfold eventsOf
  rw [processFrames_append, List.filterMap_append]
  congr 1
  simp only [processFrames]
  rw [handle_frame_log_eq locs _ he hx]
  simp [handle_log]

/-- C2 witness: one enter followed by a log attributes the log to the
entered scope. -/
theorem parent_linkage_witness :
    eventsOf (processFrames (fun _ => none)
        (TraceDecoder.new_stream ⟨fun _ => none⟩)
        ([⟨0, "span_enter: f".data⟩] ++ [⟨1, "hello".data⟩])).2 =
      eventsOf (processFrames (fun _ => none)
        (TraceDecoder.new_stream ⟨fun _ => none⟩) [⟨0, "span_enter: f".data⟩]).2 ++
        [((processFrames (fun _ => none) (TraceDecoder.new_stream ⟨fun _ => none⟩)
            [⟨0, "span_enter: f".data⟩]).1.span_stack.head?.map ScopeFrame.handle,
          "hello".data)] :=
  parent_linkage (fun _ => none) [⟨0, "span_enter: f".data⟩] 1 "hello".data
    (by decide)

/-- C8: exit handling.  The exit payload never influences the result; on a
nonempty stack exactly the top frame is popped and its handle closed; on
an empty stack the exit is a no-op. -/
theorem exit_pops_top (nm nm' : List Char) (st : TraceStream) :
    handle_span_exit nm st = handle_span_exit nm' st
    ∧ (st.span_stack = [] → handle_span_exit nm st = (st, []))
    ∧ (∀ top rest, st.span_stack = top :: rest →
        (handle_span_exit nm st).1 = { st with span_stack := rest }
        ∧ (handle_span_exit nm st).2 = [Output.endScope top.handle]) := by
  refine ⟨rfl, fun h => handle_span_exit_nil h, fun top rest h => ?_⟩
  rw [handle_span_exit_cons h]
  exact ⟨rfl, rfl⟩

/-- C8 witness: popping a singleton stack with a non-matching payload. -/
theorem exit_pops_top_witness :
    (handle_span_exit "x".data
        ⟨[⟨"f".data, 5⟩], 6, some new_stream_decoder⟩).1 =
      { (⟨[⟨"f".data, 5⟩], 6, some new_stream_decoder⟩ : TraceStream) with
          span_stack := [] }
    ∧ (handle_span_exit "x".data
        ⟨[⟨"f".data, 5⟩], 6, some new_stream_decoder⟩).2 = [Output.endScope 5] :=
  (exit_pops_top "x".data "y".data
    ⟨[⟨"f".data, 5⟩], 6, some new_stream_decoder⟩).2.2 ⟨"f".data, 5⟩ [] rfl

/-- C6: malformed-input recovery.  When the Frame Source yields a
malformed signal after `pre` well-decoded frames, the call handles the
frames before the signal, emits the diagnostic, stops before the remaining
buffered outcomes (`post` leaves no trace in the result), stores a freshly
created decoder in place of the discarded one, and returns successfully —
never an error and never a panic. -/
theorem malformed_recovery (locs : Nat → Option Location)
    (stack : List ScopeFrame) (nh : Nat) (d : StreamDecoder)
    (pre : List Frame) (post : List DecodeResult) :
    process locs ⟨stack, nh, some d⟩
        (pre.map DecodeResult.ok ++ DecodeResult.malformed :: post) =
      some (Except.ok
        ({ (processFrames locs ⟨stack, nh, some d⟩ pre).1 with
            stream_decoder := some new_stream_decoder },
         (processFrames locs ⟨stack, nh, some d⟩ pre).2 ++ [Output.diag])) :=
  process_malformed_eq locs stack nh d pre post

/-- C7: frame condition on resynchronization.  Handling the malformed
signal leaves the scope stack exactly as the preceding frames left it, and
the recovery itself adds no `begin`/`end` call to the sink: the scope
calls of the whole output are exactly those of the frames before the
signal. -/
theorem recovery_frame_condition (locs : Nat → Option Location)
    (stack : List ScopeFrame) (nh : Nat) (d : StreamDecoder)
    (pre : List Frame) (post : List DecodeResult) :
    ∃ st' out,
      process locs ⟨stack, nh, some d⟩
          (pre.map DecodeResult.ok ++ DecodeResult.malformed :: post) =
        some (Except.ok (st', out))
      ∧ st'.span_stack = (processFrames locs ⟨stack, nh, some d⟩ pre).1.span_stack
      ∧ st'.next_handle = (processFrames locs ⟨stack, nh, some d⟩ pre).1.next_handle
      ∧ out.filter isScopeCall =
          ((processFrames locs ⟨stack, nh, some d⟩ pre).2).filter isScopeCall := by
  refine ⟨_, _, process_malformed_eq locs stack nh d pre post, rfl, rfl, ?_⟩
  simp [List.filter_append, isScopeCall]

/-- C9: panic freedom on data content.  From a freshly created stream, any
sequence of `process` calls with any decode outcomes succeeds — in
particular the stored-decoder `unwrap` at the start of `process` always
finds a decoder; the slice taken after a sentinel occurrence is always in
bounds; and popping an empty scope stack is a harmless no-op. -/
theorem panic_freedom :
    (∀ (locs : Nat → Option Location) (dec : TraceDecoder)
        (calls : List (List DecodeResult)),
        (processSeq locs dec.new_stream calls).isSome = true)
    ∧ (∀ (s pat : List Char) (j : Nat),
        findSubIdx s pat = some j → j + pat.length ≤ s.length)
    ∧ (∀ (nm : List Char) (st : TraceStream),
        st.span_stack = [] → handle_span_exit nm st = (st, [])) :=
  ⟨fun locs _dec calls => processSeq_isSome locs calls _ rfl,
   fun _s _pat _j h => findSubIdx_bound h,
   fun _nm _st h => handle_span_exit_nil h⟩

/-- C9 witness: a malformed call followed by a normal call, the bound at a
concrete occurrence, and the no-op pop. -/
theorem panic_freedom_witness :
    (processSeq (fun _ => none) (TraceDecoder.new_stream ⟨fun _ => none⟩)
        [[DecodeResult.malformed],
         [DecodeResult.ok ⟨0, "hi".data⟩, DecodeResult.unexpectedEof]]).isSome = true
    ∧ 2 + filePat.length ≤ ("ab; file=x".data).length
    ∧ handle_span_exit "f".data ⟨[], 0, none⟩ = (⟨[], 0, none⟩, []) :=
  ⟨panic_freedom.1 (fun _ => none) ⟨fun _ => none⟩ _,
   panic_freedom.2.1 "ab; file=x".data filePat 2 (by decide),
   panic_freedom.2.2 "f".data ⟨[], 0, none⟩ rfl⟩

/-- C3 counterexample: a message that does not begin with the
`"span_enter: "` sentinel but contains it mid-text is classified as an
enter directive — classification uses `str::find` (first occurrence
anywhere), not a prefix match at the start of the text. -/
theorem classification_cex :
    classify ("x span_enter: f".data) = RecClass.enter
    ∧ enterPat.isPrefixOf ("x span_enter: f".data) = false := by
  constructor
  · decide
  · decide

/-- C3 (amended): classification is by first substring occurrence — a
record is an enter directive iff its text contains `"span_enter: "`
anywhere (checked first), an exit directive iff it does not contain the
enter sentinel but contains `"span_exit: "`, and a plain log record
otherwise; a text that does begin with a sentinel is classified as the
spec describes. -/
theorem classification_by_occurrence (m : List Char) :
    (classify m = RecClass.enter ↔ hasSub m enterPat = true)
    ∧ (classify m = RecClass.exit ↔
        (hasSub m enterPat = false ∧ hasSub m exitPat = true))
    ∧ (classify m = RecClass.log ↔
        (hasSub m enterPat = false ∧ hasSub m exitPat = false))
    ∧ (enterPat.isPrefixOf m = true → classify m = RecClass.enter)
    ∧ (exitPat.isPrefixOf m = true → hasSub m enterPat = false →
        classify m = RecClass.exit) := by
  cases he : findSubIdx m enterPat with
  | some i =>
    have hc : classify m = RecClass.enter := by unfold classify; rw [he]
    have hs : hasSub m enterPat = true := by unfold hasSub; rw [he]; rfl
    refine ⟨by simp [hc, hs], ?_, ?_, fun _ => hc, fun _ h2 => ?_⟩
    · constructor
      · intro h; rw [hc] at h; cases h
      · intro h; rw [hs] at h; cases h.1
    · constructor
      · intro h; rw [hc] at h; cases h
      · intro h; rw [hs] at h; cases h.1
    · rw [hs] at h2; cases h2
  | none =>
    have hse : hasSub m enterPat = false := by unfold hasSub; rw [he]; rfl
    cases hx : findSubIdx m exitPat with
    | some i =>
      have hc : classify m = RecClass.exit := by unfold classify; rw [he, hx]
      have hs : hasSub m exitPat = true := by unfold hasSub; rw [hx]; rfl
      refine ⟨?_, by simp [hc, hse, hs], ?_, fun hp => ?_, fun _ _ => hc⟩
      · constructor
        · intro h; rw [hc] at h; cases h
        · intro h
          rw [hse] at h; cases h
      · constructor
        · intro h; rw [hc] at h; cases h
        · intro h; rw [hs] at h; cases h.2
      · rw [isPrefixOf_findSubIdx hp] at he; cases he
    | none =>
      have hc : classify m = RecClass.log := by unfold classify; rw [he, hx]
      have hs : hasSub m exitPat = false := by unfold hasSub; rw [hx]; rfl
      refine ⟨?_, ?_, by simp [hc, hse, hs], fun hp => ?_, fun hp _ => ?_⟩
      · constructor
        · intro h; rw [hc] at h; cases h
        · intro h; rw [hse] at h; cases h
      · constructor
        · intro h; rw [hc] at h; cases h
        · intro h; rw [hs] at h; cases h.2
      · rw [isPrefixOf_findSubIdx hp] at he; cases he
      · rw [isPrefixOf_findSubIdx hp] at hx; cases hx

/-- C3 witness: texts beginning with each sentinel get the matching
class. -/
theorem classification_by_occurrence_witness :
    classify ("span_enter: f".data) = RecClass.enter
    ∧ classify ("span_exit: g".data) = RecClass.exit :=
  ⟨(classification_by_occurrence ("span_enter: f".data)).1.mpr (by decide),
   ((classification_by_occurrence ("span_exit: g".data)).2.1).mpr
     ⟨by decide, by decide⟩⟩

/-- C4: enter display-name derivation.  The display name of the `begin`
call is the enter remainder verbatim — argument parentheses included —
when it has no `"; file="` occurrence, and otherwise the remainder cut at
the first `"; file="` occurrence, so exactly a `"; file=…"` suffix is
stripped. -/
theorem enter_display_name (locs : Nat → Option Location) (rest : List Char)
    (i : Nat) (st : TraceStream) :
    (findSubIdx rest filePat = none →
      beginNames (handle_span_enter locs rest i st).2 = [rest])
    ∧ (∀ j, findSubIdx rest filePat = some j →
        beginNames (handle_span_enter locs rest i st).2 = [rest.take j]
        ∧ filePat.isPrefixOf (rest.drop j) = true) := by
  constructor
  · intro h
    simp [handle_span_enter, beginNames, cleanName, h]
  · intro j h
    refine ⟨?_, findSubIdx_isPrefixOf_drop h⟩
    simp [handle_span_enter, beginNames, cleanName, h]

/-- C4 witness: a name with arguments is kept verbatim; a name with the
legacy annotation is cut at the `"; file="` occurrence, which heads the
stripped suffix. -/
theorem enter_display_name_witness :
    beginNames (handle_span_enter (fun _ => none) "f(x=1)".data 0
        (TraceDecoder.new_stream ⟨fun _ => none⟩)).2 = ["f(x=1)".data]
    ∧ (beginNames (handle_span_enter (fun _ => none) "g; file=a.rs".data 0
          (TraceDecoder.new_stream ⟨fun _ => none⟩)).2 =
        [("g; file=a.rs".data).take 1]
      ∧ filePat.isPrefixOf (("g; file=a.rs".data).drop 1) = true) :=
  ⟨(enter_display_name (fun _ => none) "f(x=1)".data 0
      (TraceDecoder.new_stream ⟨fun _ => none⟩)).1 (by decide),
   (enter_display_name (fun _ => none) "g; file=a.rs".data 0
      (TraceDecoder.new_stream ⟨fun _ => none⟩)).2 1 (by decide)⟩

theorem u64_as_i64_of_lt {n : Nat} (h : n < 2 ^ 63) :
    u64_as_i64 n = (n : Int) := by
  unfold u64_as_i64
  have h64 : n < 2 ^ 64 := h.trans (by norm_num)
  rw [Nat.mod_eq_of_lt h64, if_pos h]

/-- C5 counterexample: a table line of 2^63 — a value the `u64` line field
can hold — is attached through the wrapping `as i64` cast as -2^63, not as
the table's line, so the attached attributes are not exactly the table's
triple. -/
theorem location_resolution_cex :
    eventLocs (handle_log
        (fun _ => some ⟨"a.rs".data, 2 ^ 63, "m".data⟩)
        "hello".data 0 (TraceDecoder.new_stream ⟨fun _ => none⟩)).2 =
      [("a.rs".data, (-(2 ^ 63) : Int), "m".data)]
    ∧ ((-(2 ^ 63) : Int) ≠ ((2 ^ 63 : Nat) : Int)) := by
  constructor
  · decide
  · decide

/-- C5 (amended): location resolution through the wrapping line cast.
With the format index present in the table, both the enter `begin` call
and the log event carry the table's file and module verbatim and the
table's line through the wrapping `as i64` cast — which is exactly the
table's line whenever it is below 2^63 (every real source line), and the
wrapped negative value otherwise; with the index absent they carry the
placeholders (empty file, line zero, default module); in both cases the
record is still emitted — lookup never fails the record. -/
theorem location_resolution (locs : Nat → Option Location) (st : TraceStream)
    (rest m : List Char) (i : Nat) :
    (∀ loc, locs i = some loc →
        beginLocs (handle_span_enter locs rest i st).2 =
          [(loc.file, u64_as_i64 loc.line, loc.module)]
        ∧ eventLocs (handle_log locs m i st).2 =
          [(loc.file, u64_as_i64 loc.line, loc.module)]
        ∧ (loc.line < 2 ^ 63 → u64_as_i64 loc.line = (loc.line : Int)))
    ∧ (locs i = none →
        beginLocs (handle_span_enter locs rest i st).2 =
          [(([] : List Char), (0 : Int), "rp_pico".data)]
        ∧ eventLocs (handle_log locs m i st).2 =
          [(([] : List Char), (0 : Int), "rp_pico".data)])
    ∧ (handle_span_enter locs rest i st).2 ≠ []
    ∧ (handle_log locs m i st).2 ≠ [] := by
  refine ⟨fun loc h => ⟨?_, ?_, fun hlt => u64_as_i64_of_lt hlt⟩,
    fun h => ⟨?_, ?_⟩, by simp [handle_span_enter], by simp [handle_log]⟩
  · simp [handle_span_enter, beginLocs, h]
  · simp [handle_log, eventLocs, h]
  · simp [handle_span_enter, beginLocs, h]
  · simp [handle_log, eventLocs, h]

/-- C5 witness: a concrete one-entry table with line 42, hit at index 7
and missed at index 3; 42 is below 2^63 so the attached line is exactly
42. -/
theorem location_resolution_witness :
    (beginLocs (handle_span_enter
        (fun n => if n = 7 then some ⟨"src/main.rs".data, 42, "app".data⟩ else none)
        "f".data 7 (TraceDecoder.new_stream ⟨fun _ => none⟩)).2 =
      [("src/main.rs".data, u64_as_i64 42, "app".data)])
    ∧ u64_as_i64 42 = (42 : Int)
    ∧ (eventLocs (handle_log
        (fun n => if n = 7 then some ⟨"src/main.rs".data, 42, "app".data⟩ else none)
        "hello".data 3 (TraceDecoder.new_stream ⟨fun _ => none⟩)).2 =
      [(([] : List Char), (0 : Int), "rp_pico".data)]) :=
  ⟨((location_resolution
      (fun n => if n = 7 then some ⟨"src/main.rs".data, 42, "app".data⟩ else none)
      (TraceDecoder.new_stream ⟨fun _ => none⟩) "f".data "hello".data 7).1
      ⟨"src/main.rs".data, 42, "app".data⟩ (by decide)).1,
   ((location_resolution
      (fun n => if n = 7 then some ⟨"src/main.rs".data, 42, "app".data⟩ else none)
      (TraceDecoder.new_stream ⟨fun _ => none⟩) "f".data "hello".data 7).1
      ⟨"src/main.rs".data, 42, "app".data⟩ (by decide)).2.2 (by decide),
   ((location_resolution
      (fun n => if n = 7 then some ⟨"src/main.rs".data, 42, "app".data⟩ else none)
      (TraceDecoder.new_stream ⟨fun _ => none⟩) "f".data "hello".data 3).2.1
      (by decide)).2⟩

/-! ### Fuel lemmas for the recursive strategy -/

theorem process_scope_rest_length :
    ∀ (fuel : Nat) (ls : List (List Char)) (r : List RawAct × List (List Char)),
      process_scope fuel ls = some r → r.2.length ≤ ls.length := by
  intro fuel
  induction fuel with
  | zero =>
    intro ls r h
    cases ls with
    | nil =>
      simp only [process_scope, Option.some.injEq] at h
      subst h
      simp
    | cons l rest =>
      simp only [process_scope, Option.some.injEq] at h
      subst h
      simp
  | succ f ih =>
    intro ls r h
    cases ls with
    | nil =>
      simp only [process_scope, Option.some.injEq] at h
      subst h
      simp
    | cons line rest =>
      simp only [process_scope] at h
      by_cases ht : trim line = []
      · simp only [ht, if_pos] at h
        have := ih rest r h
        simp only [List.length_cons]
        omega
      · rw [if_neg ht] at h
        cases hf : findSubIdx (trim line) enterPat with
        | some idx =>
          simp only [hf] at h
          cases hp : findSubIdx ((trim line).drop (idx + enterPat.length)) ['('] with
          | some i =>
            simp only [hp] at h
            by_cases h1 : utf8Len ((trim line).drop (idx + enterPat.length)) - 1 <
                utf8Len (((trim line).drop (idx + enterPat.length)).take i) + 1
            · simp only [if_pos h1] at h
              cases h
            · simp only [if_neg h1] at h
              by_cases h2 : (((trim line).drop
                  (idx + enterPat.length)).getLastD ' ').utf8Size ≠ 1
              · simp only [if_pos h2] at h
                cases h
              · simp only [if_neg h2] at h
                cases hin : process_scope f rest with
                | none => simp only [hin] at h; cases h
                | some inner =>
                  simp only [hin] at h
                  cases hout : process_scope f inner.2 with
                  | none => simp only [hout] at h; cases h
                  | some outer =>
                    simp only [hout, Option.some.injEq] at h
                    subst h
                    have e1 := ih rest inner hin
                    have e2 := ih inner.2 outer hout
                    simp only [List.length_cons]
                    omega
          | none =>
            simp only [hp] at h
            cases hin : process_scope f rest with
            | none => simp only [hin] at h; cases h
            | some inner =>
              simp only [hin] at h
              cases hout : process_scope f inner.2 with
              | none => simp only [hout] at h; cases h
              | some outer =>
                simp only [hout, Option.some.injEq] at h
                subst h
                have e1 := ih rest inner hin
                have e2 := ih inner.2 outer hout
                simp only [List.length_cons]
                omega
        | none =>
          simp only [hf] at h
          cases hx : findSubIdx (trim line) exitPat with
          | some j =>
            simp only [hx, Option.some.injEq] at h
            subst h
            simp
          | none =>
            simp only [hx] at h
            cases hin : process_scope f rest with
            | none => simp only [hin] at h; cases h
            | some acts =>
              simp only [hin, Option.some.injEq] at h
              subst h
              have := ih rest acts hin
              simp only [List.length_cons]
              omega

theorem process_scope_fuel :
    ∀ (f : Nat) (ls : List (List Char)) (g : Nat),
      ls.length ≤ f → ls.length ≤ g →
      process_scope f ls = process_scope g ls := by
  intro f
  induction f with
  | zero =>
    intro ls g h1 _
    have : ls = [] := List.eq_nil_of_length_eq_zero (Nat.le_zero.mp h1)
    subst this
    cases g <;> simp [process_scope]
  | succ f ih =>
    intro ls g h1 h2
    cases ls with
    | nil => cases g <;> simp [process_scope]
    | cons line rest =>
      cases g with
      | zero => simp at h2
      | succ g' =>
        have hr1 : rest.length ≤ f := by simp at h1; omega
        have hr2 : rest.length ≤ g' := by simp at h2; omega
        have hi : process_scope f rest = process_scope g' rest :=
          ih rest g' hr1 hr2
        simp only [process_scope]
        by_cases ht : trim line = []
        · simp only [ht, if_pos]
          exact hi
        · rw [if_neg ht, if_neg ht]
          cases hf : findSubIdx (trim line) enterPat with
          | some idx =>
            simp only [hf]
            cases hp : findSubIdx ((trim line).drop (idx + enterPat.length)) ['('] with
            | some i =>
              simp only [hp]
              by_cases h1 : utf8Len ((trim line).drop (idx + enterPat.length)) - 1 <
                  utf8Len (((trim line).drop (idx + enterPat.length)).take i) + 1
              · simp only [if_pos h1]
              · simp only [if_neg h1]
                by_cases h2 : (((trim line).drop
                    (idx + enterPat.length)).getLastD ' ').utf8Size ≠ 1
                · simp only [if_pos h2]
                · simp only [if_neg h2]
                  rw [hi]
                  cases hin : process_scope g' rest with
                  | none => simp only [hin]
                  | some inner =>
                    simp only [hin]
                    have hlen := process_scope_rest_length g' rest inner hin
                    rw [ih inner.2 g' (hlen.trans hr1) (hlen.trans hr2)]
            | none =>
              simp only [hp]
              rw [hi]
              cases hin : process_scope g' rest with
              | none => simp only [hin]
              | some inner =>
                simp only [hin]
                have hlen := process_scope_rest_length g' rest inner hin
                rw [ih inner.2 g' (hlen.trans hr1) (hlen.trans hr2)]
          | none =>
            simp only [hf]
            cases hx : findSubIdx (trim line) exitPat with
            | some j => simp only [hx]
            | none =>
              simp only [hx]
              rw [hi]

theorem refActs_append :
    ∀ (a b : List Frame), refActs (a ++ b) = refActs a ++ refActs b := by
  intro a
  induction a with
  | nil => intro b; simp [refActs]
  | cons f fs ih =>
    intro b
    simp only [List.cons_append, refActs]
    cases hc : classify f.message <;> simp [ih]

/-- On a well-formed sequence of good records, the scope-tree view of the
explicit strategy's output is the per-record reference action list,
whatever state the run starts from. -/
theorem explicit_refActs (locs : Nat → Option Location) {fs : List Frame}
    (hb : Bal fs) :
    (∀ f ∈ fs, goodMsg f.message) → ∀ st : TraceStream,
      projE (processFrames locs st fs).2 = refActs fs := by
  induction hb with
  | nil => intro _ st; simp [processFrames, projE, refActs]
  | log f ls hc hbtail ih =>
    intro hg st
    obtain ⟨he, hx⟩ := classify_log hc
    simp only [processFrames]
    rw [handle_frame_log_eq locs st he hx, handle_log_fst]
    unfold projE
    rw [List.filterMap_append]
    have h2 := ih (fun f hf => hg f (List.mem_cons_of_mem _ hf)) st
    unfold projE at h2
    rw [h2]
    simp [handle_log, refActs, hc]
  | scope e inner x outer hce hbi hcx hbo ihi iho =>
    intro hg st
    obtain ⟨ie, hie⟩ := classify_enter hce
    obtain ⟨hxe, ix, hix⟩ := classify_exit hcx
    obtain ⟨_, _, hfileE, _⟩ := hg e (List.mem_cons_self _ _)
    have hgInner : ∀ f ∈ inner, goodMsg f.message := fun f hf =>
      hg f (List.mem_cons_of_mem _ (List.mem_append_left _ hf))
    have hgOuter : ∀ f ∈ outer, goodMsg f.message := fun f hf =>
      hg f (List.mem_cons_of_mem _
        (List.mem_append_right _ (List.mem_cons_of_mem _ hf)))
    simp only [processFrames]
    rw [handle_frame_enter_eq locs st hie]
    simp only [List.append_eq]
    rw [processFrames_append]
    set nmE := e.message.drop (ie + enterPat.length) with hnmE
    set st1 := (handle_span_enter locs nmE e.index st).1 with hst1
    have hstack1 : st1.span_stack =
        { name := cleanName nmE, handle := st.next_handle } :: st.span_stack := by
      rw [hst1, handle_span_enter_fst]
    set stI := (processFrames locs st1 inner).1 with hstI
    have hstackI : stI.span_stack =
        { name := cleanName nmE, handle := st.next_handle } :: st.span_stack := by
      rw [hstI, Bal_span_stack locs hbi st1, hstack1]
    have hclean : cleanName nmE = nmE := by
      unfold cleanName
      have : findSubIdx nmE filePat = none := by
        rw [hnmE]
        apply findSubIdx_drop_none
        unfold hasSub at hfileE
        cases hfe : findSubIdx e.message filePat with
        | none => rfl
        | some j => rw [hfe] at hfileE; cases hfileE
      rw [this]
    -- the x :: outer tail
    have htail : processFrames locs stI (x :: outer) =
        ((processFrames locs { stI with span_stack := st.span_stack } outer).1,
         [Output.endScope st.next_handle] ++
           (processFrames locs { stI with span_stack := st.span_stack } outer).2) := by
      simp only [processFrames]
      rw [handle_frame_exit_eq locs stI hxe hix, handle_span_exit_cons hstackI]
    rw [htail]
    unfold projE
    simp only [List.filterMap_append]
    have hI := ihi hgInner st1
    unfold projE at hI
    rw [hI]
    have hO := iho hgOuter { stI with span_stack := st.span_stack }
    unfold projE at hO
    rw [hO]
    have hEnterOut : (handle_span_enter locs nmE e.index st).2.filterMap
        (fun o =>
          match o with
          | Output.begin _ n _ _ _ _ => some (RAct.begin (stripArgs n))
          | Output.endScope _ => some RAct.endScope
          | Output.event _ _ _ _ m => some (RAct.log m)
          | _ => none) = [RAct.begin (stripArgs nmE)] := by
      simp [handle_span_enter, hclean]
    rw [hEnterOut]
    have hRef : refActs (e :: inner ++ x :: outer) =
        RAct.begin (stripArgs (enterName e.message)) ::
          (refActs inner ++ RAct.endScope :: refActs outer) := by
      simp only [refActs, hce, List.append_eq]
      rw [refActs_append]
      simp only [refActs, hcx]
    rw [hRef]
    have hEN : enterName e.message = nmE := by
      unfold enterName
      rw [hie, hnmE]
    rw [hEN]
    simp

theorem rawRefActs_append :
    ∀ (a b : List Frame), rawRefActs (a ++ b) = rawRefActs a ++ rawRefActs b := by
  intro a
  induction a with
  | nil => intro b; simp [rawRefActs]
  | cons f fs ih =>
    intro b
    simp only [List.cons_append, rawRefActs]
    cases hc : classify f.message <;> simp [ih]

theorem projR_rawRefActs :
    ∀ fs : List Frame, projR (rawRefActs fs) = refActs fs := by
  intro fs
  induction fs with
  | nil => simp [rawRefActs, refActs, projR]
  | cons f fs ih =>
    cases hc : classify f.message <;>
      simp [rawRefActs, refActs, projR, hc] <;>
      simpa [projR] using ih

/-- On a well-formed sequence of good records followed by any
continuation, the recursive scan does not panic on the records: it emits
their reference actions and then continues on the remaining lines at the
same level. -/
theorem process_scope_bal {fs : List Frame} (hb : Bal fs) :
    (∀ f ∈ fs, goodMsg f.message) →
    ∀ (rest : List (List Char)) (fuel : Nat),
      (fs.map Frame.message ++ rest).length ≤ fuel →
      process_scope fuel (fs.map Frame.message ++ rest) =
        (process_scope rest.length rest).map
          (fun c => (rawRefActs fs ++ c.1, c.2)) := by
  induction hb with
  | nil =>
    intro _ rest fuel hf
    simp only [List.map_nil, List.nil_append] at hf ⊢
    rw [process_scope_fuel fuel rest rest.length hf le_rfl]
    cases hc : process_scope rest.length rest with
    | none => simp
    | some c => simp [rawRefActs]
  | log f ls hc hbtail ih =>
    intro hg rest fuel hf
    obtain ⟨he, hx⟩ := classify_log hc
    obtain ⟨htrim, hne, _, _⟩ := hg f (List.mem_cons_self _ _)
    cases fuel with
    | zero => simp at hf
    | succ fu =>
      have hlen : (ls.map Frame.message ++ rest).length ≤ fu := by
        simp at hf ⊢; omega
      simp only [List.map_cons, List.cons_append, process_scope]
      rw [htrim, if_neg hne]
      simp only [he, hx, List.append_eq]
      rw [ih (fun f hf => hg f (List.mem_cons_of_mem _ hf)) rest fu hlen]
      cases hcont : process_scope rest.length rest with
      | none => simp
      | some c => simp [rawRefActs, hc]
  | scope e inner x outer hce hbi hcx hbo ihi iho =>
    intro hg rest fuel hf
    obtain ⟨ie, hie⟩ := classify_enter hce
    obtain ⟨hxe, ix, hix⟩ := classify_exit hcx
    obtain ⟨htrimE, hneE, _, hargsE⟩ := hg e (List.mem_cons_self _ _)
    have hxmem : x ∈ e :: inner ++ x :: outer := by simp
    obtain ⟨htrimX, hneX, _, _⟩ := hg x hxmem
    have hgInner : ∀ f ∈ inner, goodMsg f.message := fun f hf =>
      hg f (List.mem_cons_of_mem _ (List.mem_append_left _ hf))
    have hgOuter : ∀ f ∈ outer, goodMsg f.message := fun f hf =>
      hg f (List.mem_cons_of_mem _
        (List.mem_append_right _ (List.mem_cons_of_mem _ hf)))
    have hlist : ((e :: inner ++ x :: outer).map Frame.message ++ rest) =
        e.message :: (inner.map Frame.message ++
          (x.message :: (outer.map Frame.message ++ rest))) := by
      simp
    rw [hlist] at hf ⊢
    cases fuel with
    | zero => simp at hf
    | succ fu =>
      have hfu : (inner.map Frame.message ++
          (x.message :: (outer.map Frame.message ++ rest))).length ≤ fu := by
        simp at hf ⊢; omega
      have hInner := ihi hgInner (x.message :: (outer.map Frame.message ++ rest)) fu hfu
      have hx1 : process_scope (x.message :: (outer.map Frame.message ++ rest)).length
          (x.message :: (outer.map Frame.message ++ rest)) =
          some ([], outer.map Frame.message ++ rest) := by
        simp only [List.length_cons, process_scope]
        rw [htrimX, if_neg hneX]
        simp only [hxe, hix]
      rw [hx1] at hInner
      simp only [Option.map_some'] at hInner
      have hfo : (outer.map Frame.message ++ rest).length ≤ fu := by
        simp at hf ⊢; omega
      have hOuter := iho hgOuter rest fu hfo
      unfold argsSliceOk at hargsE
      simp only [hie] at hargsE
      simp only [process_scope]
      rw [htrimE, if_neg hneE]
      simp only [hie, List.append_eq]
      cases hpar : findSubIdx (List.drop (ie + enterPat.length) e.message) ['('] with
      | some i =>
        simp only [hpar, Bool.and_eq_true, decide_eq_true_eq, beq_iff_eq] at hargsE
        obtain ⟨h1, h2⟩ := hargsE
        simp at h2
        simp only [hpar]
        rw [if_neg (by omega)]
        rw [if_neg (by simp [h2])]
        have hRef : rawRefActs (e :: inner ++ x :: outer) =
            RawAct.begin ((e.message.drop (ie + enterPat.length)).take i)
                (((e.message.drop (ie + enterPat.length)).drop (i + 1)).dropLast) ::
              (rawRefActs inner ++ RawAct.endScope :: rawRefActs outer) := by
          simp only [rawRefActs, hce, List.append_eq]
          rw [rawRefActs_append]
          simp only [rawRefActs, hcx]
          unfold enterName stripArgs argsOf
          simp only [hie, hpar]
        simp only [hInner, hOuter]
        cases hcont : process_scope rest.length rest with
        | none => simp
        | some c =>
          simp only [Option.map_some']
          rw [hRef]
          simp [List.append_assoc]
      | none =>
        simp only [hpar]
        have hRef : rawRefActs (e :: inner ++ x :: outer) =
            RawAct.begin (e.message.drop (ie + enterPat.length)) [] ::
              (rawRefActs inner ++ RawAct.endScope :: rawRefActs outer) := by
          simp only [rawRefActs, hce, List.append_eq]
          rw [rawRefActs_append]
          simp only [rawRefActs, hcx]
          unfold enterName stripArgs argsOf
          simp only [hie, hpar]
        simp only [hInner, hOuter]
        cases hcont : process_scope rest.length rest with
        | none => simp
        | some c =>
          simp only [Option.map_some']
          rw [hRef]
          simp [List.append_assoc]

/-- C10 counterexample: on the well-formed input
`["span_enter: f(x=1)", "span_exit: f"]` the explicit strategy begins a
scope named `"f(x=1)"` while the recursive strategy begins a scope named
`"f"` — the two strategies do not produce the same scope names. -/
theorem strategy_equivalence_cex :
    beginNames (processFrames (fun _ => none)
        (TraceDecoder.new_stream ⟨fun _ => none⟩)
        [⟨0, "span_enter: f(x=1)".data⟩, ⟨1, "span_exit: f".data⟩]).2 =
      ["f(x=1)".data]
    ∧ (processLogs ["span_enter: f(x=1)".data, "span_exit: f".data]).map
        rawBeginNames = some ["f".data]
    ∧ ("f(x=1)".data : List Char) ≠ "f".data := by
  refine ⟨by decide, by decide, by decide⟩

/-- C10 (amended): for every well-formed record sequence (every exit
closes the most recent open enter and every enter is exited) whose
rendered texts are nonempty, free of surrounding Unicode whitespace, free
of the legacy `"; file="` annotation, and outside the recursive
strategy's args-slice panic (when an enter content contains `'('`, that
`'('` is not its final character and its final character is a single
byte), the recursive scan consumes the whole input without panicking and
the two strategies produce the same sequence of scope begins, scope ends
and scope-context log events with the same nesting, once scope names are
compared with the parenthesized argument text stripped (the recursive
strategy's name is the explicit display name cut at its first `'('`). -/
theorem strategy_equivalence (locs : Nat → Option Location) (fs : List Frame)
    (hb : Bal fs) (hg : ∀ f ∈ fs, goodMsg f.message) :
    ∃ acts : List RawAct,
      process_scope (fs.map Frame.message).length (fs.map Frame.message) =
        some (acts, [])
      ∧ processLogs (fs.map Frame.message) = some acts
      ∧ projE (processFrames locs (TraceDecoder.new_stream ⟨locs⟩) fs).2 =
          projR acts := by
  have hR := process_scope_bal hb hg [] (fs.map Frame.message).length (by simp)
  rw [List.append_nil] at hR
  have h0 : process_scope ([] : List (List Char)).length [] = some ([], []) := rfl
  rw [h0] at hR
  simp only [Option.map_some', List.append_nil] at hR
  refine ⟨rawRefActs fs, hR, ?_, ?_⟩
  · unfold processLogs
    rw [hR]
    rfl
  · rw [explicit_refActs locs hb hg (TraceDecoder.new_stream ⟨locs⟩),
      projR_rawRefActs]

/-- C10 witness: a two-record enter/exit sequence satisfies the
hypotheses, and both strategies produce `[begin "f", end]` with nothing
left over and no panic. -/
theorem strategy_equivalence_witness :
    ∃ acts : List RawAct,
      process_scope
          (([⟨0, "span_enter: f".data⟩, ⟨1, "span_exit: f".data⟩] :
            List Frame).map Frame.message).length
          (([⟨0, "span_enter: f".data⟩, ⟨1, "span_exit: f".data⟩] :
            List Frame).map Frame.message) = some (acts, [])
      ∧ processLogs (([⟨0, "span_enter: f".data⟩, ⟨1, "span_exit: f".data⟩] :
            List Frame).map Frame.message) = some acts
      ∧ projE (processFrames (fun _ => none)
            (TraceDecoder.new_stream ⟨fun _ => none⟩)
            [⟨0, "span_enter: f".data⟩, ⟨1, "span_exit: f".data⟩]).2 =
          projR acts :=
  strategy_equivalence (fun _ => none)
    [⟨0, "span_enter: f".data⟩, ⟨1, "span_exit: f".data⟩]
    (Bal.scope ⟨0, "span_enter: f".data⟩ [] ⟨1, "span_exit: f".data⟩ []
      (by decide) Bal.nil (by decide) Bal.nil)
    (by decide)

end TracingDefmt
